import Mathlib

/-!
Shallow embedding of the cache-miss coalescing pipeline of `src/route/cache.rs`
(the `hath` handler): the keystamp validator, the download-state registry, the
download worker (retry loop, chunk loop, hash verification, cache import), the
progress watch channel, and the streaming body generator.

Strings from the Rust code are modelled as `List Char`; byte buffers as
`List Nat`; the external SHA-1 function (`util::string_to_hash` / the openssl
hasher) is a parameter of every definition that uses it, since the claims hold
for an arbitrary hash function.  The download worker is embedded as a pure
function from the environment's choices (per-retry attempt outcomes, upstream
chunk streams, file-operation results) to a trace of observable events
(progress publications, `closed()` rendezvous, registry removal, hash
comparison, cache import) together with the final progress counter and the
byte sequence written to the temp file (which the code also feeds to the
hasher, write by write).
-/

namespace HathCache

/-! ### Keystamp validator (cache.rs lines 30, 41, 49-56) -/

/-- Rust `str::split('-')`: split a character list at every separator,
keeping empty pieces (`"".split('-')` yields one empty piece). -/
def splitOnChar (sep : Char) : List Char → List (List Char)
  | [] => [[]]
  | c :: rest =>
    let r := splitOnChar sep rest
    if c = sep then [] :: r
    else (c :: r.headD []) :: r.tail

/-- Decimal digit value, `none` for a non-digit. -/
def digitVal (c : Char) : Option Nat :=
  if '0' ≤ c ∧ c ≤ '9' then some (c.toNat - '0'.toNat) else none

/-- Value of a non-empty all-digit character list, `none` otherwise. -/
def decDigits (cs : List Char) : Option Nat :=
  if cs.isEmpty then none
  else cs.foldl (fun acc c =>
    match acc, digitVal c with
    | some n, some d => some (n * 10 + d)
    | _, _ => none) (some 0)

/-- Rust `str::parse::<i64>()`: optional sign, at least one digit, value
within the i64 range; anything else is an error (`none`). -/
def parseI64 (cs : List Char) : Option Int :=
  match cs with
  | '+' :: rest => (decDigits rest).bind fun n =>
      if (n : Int) ≤ 2 ^ 63 - 1 then some (n : Int) else none
  | '-' :: rest => (decDigits rest).bind fun n =>
      if (n : Int) ≤ 2 ^ 63 then some (-(n : Int)) else none
  | _ => (decDigits cs).bind fun n =>
      if (n : Int) ≤ 2 ^ 63 - 1 then some (n : Int) else none

/-- Rust `parse::<i64>().unwrap_or_default()` (cache.rs line 52). -/
def parseI64OrZero (cs : List Char) : Int := (parseI64 cs).getD 0

/-- `TTL.contains`, with `TTL: RangeInclusive<i64> = -900..=900`
(cache.rs line 30). -/
def ttlContains (d : Int) : Bool := decide (-900 ≤ d) && decide (d ≤ 900)

/-- The keystamp check of cache.rs lines 41, 49-54: split the `keystamp`
parameter at `'-'`, take the first piece as the time text and the second as
the hash prefix, parse the time text with `unwrap_or_default`, and accept
iff the time and hash pieces are non-empty, the time difference lies in the
TTL range, and the SHA-1 hex of `"{time}-{file_id}-{key}-hotlinkthis"`
starts with the hash piece. -/
def keystampAccept (sha1hex : List Char → List Char) (now : Int)
    (serverKey fileId keystamp : List Char) : Bool :=
  let parts := splitOnChar '-' keystamp
  let time := parts.headD []
  let hash := (parts.drop 1).headD []
  let timeDiff := now - parseI64OrZero time
  let hashString := time ++ '-' :: fileId ++ '-' :: serverKey ++ '-' :: "hotlinkthis".data
  !(time.isEmpty || hash.isEmpty || !ttlContains timeDiff
      || !(hash.isPrefixOf (sha1hex hashString)))

/-- Outcome of the keystamp gate: `forbidden403` models `return forbidden()`
(cache.rs lines 54-56), `proceed` models falling through to the cache lookup. -/
inductive KsResult
  | forbidden403
  | proceed
deriving DecidableEq

/-- The early-return structure of the keystamp check. -/
def keystampGate (sha1hex : List Char → List Char) (now : Int)
    (serverKey fileId keystamp : List Char) : KsResult :=
  if keystampAccept sha1hex now serverKey fileId keystamp then .proceed
  else .forbidden403

theorem splitOnChar_no_sep (sep : Char) (cs : List Char) (h : sep ∉ cs) :
    splitOnChar sep cs = [cs] := by
  induction cs with
  | nil => rfl
  | cons c rest ih =>
    simp only [List.mem_cons, not_or] at h
    have hcs : ¬ c = sep := fun hc => h.1 hc.symm
    simp [splitOnChar, ih h.2, hcs]

theorem splitOnChar_append (sep : Char) (t rest : List Char) (h : sep ∉ t) :
    splitOnChar sep (t ++ sep :: rest) = t :: splitOnChar sep rest := by
  induction t with
  | nil => simp [splitOnChar]
  | cons c cs ih =>
    simp only [List.mem_cons, not_or] at h
    have hcs : ¬ c = sep := fun hc => h.1 hc.symm
    simp [splitOnChar, ih h.2, hcs]

theorem parseI64_ne_nil {cs : List Char} {t : Int} (h : parseI64 cs = some t) :
    cs ≠ [] := by
  intro hnil; subst hnil; simp [parseI64, decDigits] at h

/-- The keystamp gate proceeds exactly when the split pieces satisfy the
non-emptiness, TTL and hash-prefix conditions. -/
theorem keystampGate_proceed (sha1hex : List Char → List Char) (now : Int)
    (serverKey fileId keystamp : List Char) :
    keystampGate sha1hex now serverKey fileId keystamp = KsResult.proceed ↔
      ((splitOnChar '-' keystamp).headD [] ≠ [] ∧
       ((splitOnChar '-' keystamp).drop 1).headD [] ≠ [] ∧
       -900 ≤ now - parseI64OrZero ((splitOnChar '-' keystamp).headD []) ∧
       now - parseI64OrZero ((splitOnChar '-' keystamp).headD []) ≤ 900 ∧
       ((splitOnChar '-' keystamp).drop 1).headD [] <+:
         sha1hex ((splitOnChar '-' keystamp).headD [] ++ '-' :: fileId ++
           '-' :: serverKey ++ '-' :: "hotlinkthis".data)) := by
  have hgate : (keystampGate sha1hex now serverKey fileId keystamp = KsResult.proceed) ↔
      (keystampAccept sha1hex now serverKey fileId keystamp = true) := by
    unfold keystampGate
    split <;> simp_all
  rw [hgate]
  unfold keystampAccept ttlContains
  simp only [Bool.not_eq_true', Bool.not_eq_false', Bool.or_eq_false_iff,
    List.isEmpty_eq_false, Bool.and_eq_true, decide_eq_true_eq,
    List.isPrefixOf_iff_prefix]
  tauto

/-- Claim C7: with server key K and file id F, a keystamp `"T-H"` whose time
half `T` parses as the i64 `t` is accepted (the gate proceeds rather than
returning 403) if and only if both halves are non-empty, the difference
between server time and `t` lies within ±900 seconds, and the SHA-1 hex
digest of `"T-F-K-hotlinkthis"` starts with `H` (case-sensitive prefix
match, not full equality); in every other case the gate answers 403. -/
theorem keystamp_accept_iff (sha1hex : List Char → List Char) (now : Int)
    (serverKey fileId T H : List Char) (t : Int)
    (hT : parseI64 T = some t) (hTd : '-' ∉ T) (hHd : '-' ∉ H) :
    keystampGate sha1hex now serverKey fileId (T ++ '-' :: H) = KsResult.proceed ↔
      (T ≠ [] ∧ H ≠ [] ∧ -900 ≤ now - t ∧ now - t ≤ 900 ∧
        H <+: sha1hex (T ++ '-' :: fileId ++ '-' :: serverKey ++
          '-' :: "hotlinkthis".data)) := by
  rw [keystampGate_proceed]
  rw [splitOnChar_append '-' T H hTd, splitOnChar_no_sep '-' H hHd]
  simp only [List.headD, List.drop, parseI64OrZero, hT, Option.getD]

/-- Witness for C7 at concrete inputs. -/
theorem keystamp_accept_iff_witness :
    keystampGate (fun _ => ['a', 'b', 'c']) 5 ['k'] ['f']
      ('3' :: '-' :: ['a']) = KsResult.proceed := by
  have h := keystamp_accept_iff (fun _ => ['a', 'b', 'c']) 5 ['k'] ['f']
    ['3'] ['a'] 3 (by decide) (by decide) (by decide)
  exact h.mpr ⟨by decide, by decide, by decide, by decide, by decide⟩

/-- Claim C9: when the time half of the keystamp is non-empty but not a valid
decimal i64, the handler substitutes 0 for the parsed timestamp rather than
rejecting the request as malformed, so the TTL check passes exactly when the
server time itself lies in [-900, 900], while the hash string is still built
from the original unparsed time text `T`. -/
theorem keystamp_bad_time (sha1hex : List Char → List Char) (now : Int)
    (serverKey fileId T H : List Char)
    (hT : parseI64 T = none) (hTne : T ≠ []) (hTd : '-' ∉ T) (hHd : '-' ∉ H) :
    keystampGate sha1hex now serverKey fileId (T ++ '-' :: H) = KsResult.proceed ↔
      (H ≠ [] ∧ -900 ≤ now ∧ now ≤ 900 ∧
        H <+: sha1hex (T ++ '-' :: fileId ++ '-' :: serverKey ++
          '-' :: "hotlinkthis".data)) := by
  rw [keystampGate_proceed]
  rw [splitOnChar_append '-' T H hTd, splitOnChar_no_sep '-' H hHd]
  simp only [List.headD, List.drop, parseI64OrZero, hT, Option.getD, sub_zero]
  constructor
  · rintro ⟨-, h2, h3, h4, h5⟩; exact ⟨h2, h3, h4, h5⟩
  · rintro ⟨h2, h3, h4, h5⟩; exact ⟨hTne, h2, h3, h4, h5⟩

/-- Witness for C9 at concrete inputs: time text `"z"` fails to parse, the
parsed value is taken to be 0, and with server time 0 the request passes. -/
theorem keystamp_bad_time_witness :
    keystampGate (fun _ => ['a', 'b']) 0 ['k'] ['f']
      ('z' :: '-' :: ['a']) = KsResult.proceed := by
  have h := keystamp_bad_time (fun _ => ['a', 'b']) 0 ['k'] ['f']
    ['z'] ['a'] (by decide) (by decide) (by decide) (by decide)
  exact h.mpr ⟨by decide, by decide, by decide, by decide⟩

/-! ### Download-state registry (cache.rs lines 82-92)

The registry `data.download_state` is a mutex-protected map from content hash
to the in-flight download handle.  The mutex serializes the critical sections,
so any set of concurrent requests is modelled as a sequence of atomic
`lookup / insert-if-absent` operations.  Only the keys matter for the claims,
so the state is the list of registered hashes. -/

/-- The critical section of cache.rs lines 85-92: under the lock, look the
hash up and insert it when absent.  Returns `true` when this request observed
an absent entry and inserted (it then spawns the download worker), `false`
when it received the existing handle (it then subscribes). -/
def lookupOrInsert {α : Type} [DecidableEq α] (st : List α) (h : α) : Bool × List α :=
  if h ∈ st then (false, st) else (true, h :: st)

/-- Serialized processing of a sequence of arriving requests (each element is
the content hash the request asks for): each request runs the critical
section in turn; the returned list records, per request, whether it was the
inserter. -/
def processRequests {α : Type} [DecidableEq α] (st : List α) : List α → List Bool
  | [] => []
  | h :: rest =>
    let r := lookupOrInsert st h
    r.1 :: processRequests r.2 rest

/-- Claim C2: for any set of N ≥ 1 concurrent requests for the same content
hash (serialized in any order by the registry mutex, with no interleaved
removal), exactly the first one observes an absent entry, inserts the handle
and (as the inserter) spawns the download worker; every other request
receives the existing handle and subscribes instead of starting a second
download — so the inserter count is exactly one. -/
theorem coalesce_single_insert {α : Type} [DecidableEq α] (st : List α) (h : α)
    (n : Nat) (habs : h ∉ st) :
    processRequests st (List.replicate (n + 1) h) =
      true :: List.replicate n false ∧
    (processRequests st (List.replicate (n + 1) h)).count true = 1 := by
  have hmain : processRequests st (List.replicate (n + 1) h) =
      true :: List.replicate n false := by
    simp only [List.replicate, processRequests, lookupOrInsert, if_neg habs]
    induction n with
    | zero => rfl
    | succ m ih =>
      simp only [List.replicate, processRequests, lookupOrInsert,
        if_pos (List.mem_cons_self h st)] at ih ⊢
      rw [List.cons_inj_right] at ih
      rw [ih]
  refine ⟨hmain, ?_⟩
  rw [hmain]
  simp [List.count_cons, List.count_replicate]

/-- Witness for C2: three concurrent requests, empty registry. -/
theorem coalesce_single_insert_witness :
    processRequests ([] : List Nat) (List.replicate 3 7) =
      true :: List.replicate 2 false ∧
    (processRequests ([] : List Nat) (List.replicate 3 7)).count true = 1 :=
  coalesce_single_insert [] 7 2 (by decide)

/-! ### Subscriber path and streaming responder (cache.rs lines 94-101, 210-246) -/

/-- Result of the subscriber's wait on the temp-path watch
(cache.rs lines 94-101). -/
inductive SubsStep (α : Type)
  | proceed (st : List α)
  | notFound404 (st : List α)
deriving DecidableEq

/-- The subscriber path of cache.rs lines 94-101: await the temp-path watch;
on error (`wait_for` returns `Err`, i.e. the sender was dropped before
publishing) remove the registry entry for this hash and answer 404; on
success keep the registry untouched and proceed to subscribe. -/
def subscriberTempWait {α : Type} [DecidableEq α] (st : List α) (h : α)
    (waitOk : Bool) : SubsStep α :=
  if waitOk then .proceed st else .notFound404 (st.erase h)

/-- Whether a subscriber step answered 404. -/
def SubsStep.is404 {α : Type} : SubsStep α → Bool
  | .proceed _ => false
  | .notFound404 _ => true

/-- Claim C10: on the subscriber path, a failed temp-path wait makes the
handler answer 404 and also remove the download-state registry entry for the
hash — a registry mutation performed by a subscriber rather than by the
initiator or the downloader that owns the entry. -/
theorem subscriber_wait_fail_removes {α : Type} [DecidableEq α]
    (st : List α) (h : α) (hnd : st.Nodup) :
    subscriberTempWait st h false = SubsStep.notFound404 (st.erase h) ∧
    h ∉ st.erase h := by
  exact ⟨rfl, hnd.not_mem_erase⟩

/-- Witness for C10: registry `[1, 2]`, failed wait on hash 1. -/
theorem subscriber_wait_fail_removes_witness :
    subscriberTempWait [1, 2] 1 false = SubsStep.notFound404 ([1, 2].erase 1) ∧
    1 ∉ ([1, 2] : List Nat).erase 1 :=
  subscriber_wait_fail_removes [1, 2] 1 (by decide)

/-- The pre-stream check of cache.rs lines 210-213: before emitting response
headers, if the borrowed progress is still 0 and `rx.changed()` fails (the
progress sender was dropped, i.e. the downloader died before the first byte),
answer 404; otherwise emit the headers and start the body. -/
inductive PreBody
  | notFound404
  | streamHeaders
deriving DecidableEq

/-- `if *rx.borrow() == 0 && rx.changed().await.is_err() { 404 }`. -/
def preStream (progress0 : Nat) (changedOk : Bool) : PreBody :=
  if progress0 = 0 && !changedOk then .notFound404 else .streamHeaders

/-- The body generator of cache.rs lines 221-245, one outer iteration per
observed progress value: `obs` is the sequence of values successively read
from the progress watch after the headers were sent (the sequence ends when
`rx.changed()` fails or times out — the downloader died or went silent);
`written` is the temp-file content; `fileSize` the declared size carried in
`Content-Length`.  Each outer iteration reads the bytes between the previous
read offset and the observed progress and yields them; the loop ends early
when the declared size has been read.  The output is the list of yielded
data chunks — the generator yields no other signal for a dead downloader. -/
def bodyRun (written : List Nat) (fileSize : Nat) : Nat → List Nat → List (List Nat)
  | _, [] => []
  | readOff, w :: rest =>
    if w ≤ readOff then bodyRun written fileSize readOff rest
    else
      let chunk := (written.drop readOff).take (w - readOff)
      if w = fileSize then [chunk]
      else chunk :: bodyRun written fileSize w rest

/-- Largest observed progress value. -/
def obsMax (r : Nat) (obs : List Nat) : Nat := obs.foldl max r

theorem obsMax_of_all_le {r : Nat} {obs : List Nat} (h : ∀ x ∈ obs, x ≤ r) :
    obsMax r obs = r := by
  induction obs with
  | nil => rfl
  | cons a l ih =>
    have ha := h a (by simp)
    have : max r a = r := by omega
    simp only [obsMax, List.foldl, this]
    exact ih fun x hx => h x (by simp [hx])

theorem le_obsMax (r : Nat) (obs : List Nat) : r ≤ obsMax r obs := by
  induction obs generalizing r with
  | nil => exact Nat.le_refl r
  | cons a l ih =>
    simp only [obsMax, List.foldl] at ih ⊢
    exact le_trans (Nat.le_max_left r a) (ih (max r a))

theorem obsMax_le {r m : Nat} {obs : List Nat} (hr : r ≤ m)
    (h : ∀ x ∈ obs, x ≤ m) : obsMax r obs ≤ m := by
  induction obs generalizing r with
  | nil => exact hr
  | cons a l ih =>
    simp only [obsMax, List.foldl] at ih ⊢
    have ha := h a (by simp)
    exact ih (by omega) fun x hx => h x (by simp [hx])

/-- Bytes yielded by the body generator: with non-decreasing observations,
each bounded by the declared size and by the number of bytes on disk, the
concatenated body is exactly the slice of the temp file between the starting
offset and the largest observation. -/
theorem bodyRun_flatten (written : List Nat) (fileSize : Nat) (readOff : Nat)
    (obs : List Nat) (hmono : obs.Pairwise (· ≤ ·))
    (hb : ∀ w ∈ obs, w ≤ written.length ∧ w ≤ fileSize) :
    (bodyRun written fileSize readOff obs).flatten =
      (written.drop readOff).take (obsMax readOff obs - readOff) := by
  induction obs generalizing readOff with
  | nil => simp [bodyRun, obsMax]
  | cons w rest ih =>
    rw [List.pairwise_cons] at hmono
    obtain ⟨hw, hrest⟩ := hmono
    by_cases hle : w ≤ readOff
    · rw [show bodyRun written fileSize readOff (w :: rest) =
          bodyRun written fileSize readOff rest from by
        simp [bodyRun, hle]]
      rw [ih readOff hrest (fun x hx => hb x (by simp [hx]))]
      have : obsMax readOff (w :: rest) = obsMax readOff rest := by
        simp only [obsMax, List.foldl]
        have : max readOff w = readOff := by omega
        rw [this]
      rw [this]
    · push_neg at hle
      have hwb := hb w (by simp)
      by_cases hfs : w = fileSize
      · subst hfs
        rw [show bodyRun written w readOff (w :: rest) =
            [(written.drop readOff).take (w - readOff)] from by
          simp only [bodyRun]
          rw [if_neg (by omega)]
          simp]
        have hmax : obsMax readOff (w :: rest) = w := by
          simp only [obsMax, List.foldl]
          have h1 : max readOff w = w := by omega
          rw [h1]
          exact obsMax_of_all_le fun x hx => (hb x (by simp [hx])).2
        rw [hmax]
        simp
      · rw [show bodyRun written fileSize readOff (w :: rest) =
            (written.drop readOff).take (w - readOff) ::
              bodyRun written fileSize w rest from by
          simp [bodyRun, hfs, Nat.not_le.mpr hle]]
        have hmax : obsMax readOff (w :: rest) = obsMax w rest := by
          simp only [obsMax, List.foldl]
          have h1 : max readOff w = w := by omega
          rw [h1]
        rw [hmax]
        simp only [List.flatten_cons]
        rw [ih w hrest (fun x hx => hb x (by simp [hx]))]
        have hwM : w ≤ obsMax w rest := le_obsMax w rest
        have hMb : obsMax w rest ≤ written.length :=
          obsMax_le hwb.1 fun x hx => (hb x (by simp [hx])).1
        rw [show written.drop w = (written.drop readOff).drop (w - readOff) from by
          rw [List.drop_drop]
          congr 1
          omega]
        rw [← List.take_add ((written.drop readOff)) (w - readOff)
          (obsMax w rest - w)]
        congr 1
        omega

/-- Claim C8: downloader errors surfacing before response headers are sent —
a failed temp-path wait on the subscriber path, or progress still 0 when the
progress sender is dropped — yield HTTP 404; a downloader error after the
headers are sent manifests to the client only as a truncated body (the body
generator emits data chunks whose total is the bytes the downloader managed
to write, strictly fewer than the `Content-Length` value `fileSize`), never
as a different error signal. -/
theorem downloader_error_surface {α : Type} [DecidableEq α]
    (st : List α) (h : α) (p0 : Nat) (c : Bool)
    (written : List Nat) (fileSize : Nat) (obs : List Nat)
    (hmono : obs.Pairwise (· ≤ ·))
    (hb : ∀ w ∈ obs, w ≤ written.length ∧ w ≤ fileSize)
    (hdead : obsMax 0 obs < fileSize) :
    (subscriberTempWait st h false).is404 = true ∧
    (preStream p0 c = PreBody.notFound404 ↔ (p0 = 0 ∧ c = false)) ∧
    ((bodyRun written fileSize 0 obs).flatten =
        written.take (obsMax 0 obs) ∧
      (bodyRun written fileSize 0 obs).flatten.length < fileSize) := by
  refine ⟨rfl, ?_, ?_⟩
  · unfold preStream
    rcases c <;> rcases Nat.eq_zero_or_pos p0 with hp | hp <;> simp_all
  · have hfl := bodyRun_flatten written fileSize 0 obs hmono hb
    simp only [List.drop_zero, Nat.sub_zero] at hfl
    refine ⟨hfl, ?_⟩
    rw [hfl, List.length_take]
    have : obsMax 0 obs ≤ written.length :=
      obsMax_le (Nat.zero_le _) fun x hx => (hb x hx).1
    omega

/-- Witness for C8: a downloader that wrote 2 of 4 declared bytes and died. -/
theorem downloader_error_surface_witness :
    (subscriberTempWait [5] (5 : Nat) false).is404 = true ∧
    (preStream 0 false = PreBody.notFound404 ↔ ((0 : Nat) = 0 ∧ false = false)) ∧
    ((bodyRun [10, 11] 4 0 [1, 2]).flatten = [10, 11].take (obsMax 0 [1, 2]) ∧
      (bodyRun [10, 11] 4 0 [1, 2]).flatten.length < 4) :=
  downloader_error_surface [5] 5 0 false [10, 11] 4 [1, 2]
    (by decide) (by decide) (by decide)

/-! ### Download worker (cache.rs lines 119-205)

The spawned worker task is embedded as a pure function from the environment's
choices to its observable behaviour.  Per retry iteration (`'retry: for retry
in 0..3`) the environment decides whether the temp-file open and seek succeed,
whether the GET request succeeds (`request.and_then(|r| r.error_for_status())`),
the sequence of chunks the upstream byte stream yields (each chunk either
bytes together with the success of the corresponding `write_all`, or a stream
error), and whether the final `flush` succeeds.  The proxy-client rebuild on
the second retry and the round-robin choice of source URL affect none of the
observables modelled here and are omitted.  The worker emits a trace of
events: every `tx2.send_replace(progress)`, every `tx2.closed().await`
rendezvous, every `download_state.lock().remove(..)` (including the one run
by the `scopeguard` when the task ends or is dropped), the hash comparison
`hash == info2.hash()`, and the `cache_manager.import_cache` call. -/

/-- One upstream stream item: `Ok(bytes)` (with the success of the
`write_all` that consumes its unwritten tail) or `Err` (chunk-stream error,
`continue 'retry`). -/
inductive ChunkEv
  | bytes (b : List Nat) (writeOk : Bool)
  | streamErr
deriving DecidableEq

/-- Environment choices for one retry iteration. -/
structure Attempt where
  openOk : Bool
  seekOk : Bool
  requestOk : Bool
  chunks : List ChunkEv
  flushOk : Bool
deriving DecidableEq

/-- Observable events of the worker. -/
inductive Ev
  | progressEv (n : Nat)
  | closedAwait
  | removeState
  | hashCheck (ok : Bool)
  | importCache
deriving DecidableEq

/-- How the chunk loop of one attempt ended: the stream ran out (`ended`),
a chunk-stream error occurred (`continue 'retry`), or a `write_all` failed
(`break 'retry`). -/
inductive CExit
  | ended
  | retry
  | brk
deriving DecidableEq

/-- State after running a chunk loop: progress counter, bytes written so far
(equal to the temp-file content and to the byte sequence fed to the hasher —
the code writes and hashes the same `data` slice), events emitted, exit kind. -/
structure CRes where
  p : Nat
  w : List Nat
  evs : List Ev
  exit : CExit
deriving DecidableEq

/-- The chunk loop of cache.rs lines 158-182.  `p` is `progress`, `w` the
bytes written so far, `d` the running `download` counter of this attempt.
A chunk whose cumulative offset stays at or below `progress` is skipped;
otherwise only the tail `bytes[len - (download - progress)..]` is written
and hashed, `progress` becomes `download`, and the new progress is
published. -/
def runChunks (p : Nat) (w : List Nat) (d : Nat) : List ChunkEv → CRes
  | [] => ⟨p, w, [], .ended⟩
  | ChunkEv.streamErr :: _ => ⟨p, w, [], .retry⟩
  | ChunkEv.bytes b wok :: rest =>
    let d2 := d + b.length
    if d2 ≤ p then runChunks p w d2 rest
    else
      let ws := d2 - p
      let start := b.length - ws
      let dat := b.drop start
      if wok then
        let r := runChunks d2 (w ++ dat) d2 rest
        ⟨r.p, r.w, Ev.progressEv d2 :: r.evs, r.exit⟩
      else ⟨p, w, [], .brk⟩

/-- Events of the verification block of cache.rs lines 183-199, entered when
the stream ended with `progress == file_size` and the flush succeeded:
publish `progress`, await `closed()`, remove the registry entry, compare the
hash, and on a match await `closed()` once more and import into the cache. -/
def verifyEvents (sha1 : List Nat → List Nat) (declared : List Nat)
    (p : Nat) (w : List Nat) : List Ev :=
  [Ev.progressEv p, Ev.closedAwait, Ev.removeState,
    Ev.hashCheck (decide (sha1 w = declared))] ++
  (if sha1 w = declared then [Ev.closedAwait, Ev.importCache] else [])

/-- Final result of the worker: trace, final progress, final written bytes. -/
structure WRes where
  evs : List Ev
  p : Nat
  w : List Nat
deriving DecidableEq

/-- The retry loop of cache.rs lines 128-205.  Open/seek or request failures
fall through to the next retry with nothing written; a stream error keeps
`progress`, the file and the hasher state for the next retry; a write or
flush failure is `break 'retry`; when the stream ends with
`progress == file_size` the verification block runs and the task returns.
On every exit of the task the `scopeguard` (moved into the task) drops and
removes the registry entry once more — `remove` is idempotent. -/
def runWorker (sha1 : List Nat → List Nat) (fileSize : Nat)
    (declared : List Nat) : Nat → List Nat → List Attempt → WRes
  | p, w, [] => ⟨[Ev.removeState], p, w⟩
  | p, w, a :: rest =>
    if a.openOk && a.seekOk && a.requestOk then
      let r := runChunks p w 0 a.chunks
      match r.exit with
      | .retry =>
        let r2 := runWorker sha1 fileSize declared r.p r.w rest
        ⟨r.evs ++ r2.evs, r2.p, r2.w⟩
      | .brk => ⟨r.evs ++ [Ev.removeState], r.p, r.w⟩
      | .ended =>
        if r.p = fileSize then
          if a.flushOk then
            ⟨r.evs ++ verifyEvents sha1 declared r.p r.w ++ [Ev.removeState],
              r.p, r.w⟩
          else ⟨r.evs ++ [Ev.removeState], r.p, r.w⟩
        else
          let r2 := runWorker sha1 fileSize declared r.p r.w rest
          ⟨r.evs ++ r2.evs, r2.p, r2.w⟩
    else
      let r2 := runWorker sha1 fileSize declared p w rest
      ⟨r2.evs, r2.p, r2.w⟩

/-- The worker as spawned at cache.rs line 123: `hasher` empty,
`progress = 0`, nothing written yet. -/
def workerRun (sha1 : List Nat → List Nat) (fileSize : Nat)
    (declared : List Nat) (attempts : List Attempt) : WRes :=
  runWorker sha1 fileSize declared 0 [] attempts

/-- The sequence of values held by the progress watch channel: its initial
value 0 (cache.rs line 83, `watch::channel(0)`) followed by every published
value in trace order. -/
def progressValues (r : WRes) : List Nat :=
  0 :: r.evs.filterMap fun e =>
    match e with
    | Ev.progressEv n => some n
    | _ => none

/-- All bytes an attempt's upstream stream would deliver, in order. -/
def attemptBytes (a : Attempt) : List Nat :=
  (a.chunks.map fun c =>
    match c with
    | ChunkEv.bytes b _ => b
    | ChunkEv.streamErr => []).flatten

/-- Total number of bytes an attempt's upstream stream would deliver. -/
def deliveredLen (a : Attempt) : Nat :=
  (a.chunks.map fun c =>
    match c with
    | ChunkEv.bytes b _ => b.length
    | ChunkEv.streamErr => 0).sum

/-- An attempt in which everything succeeds: open, seek, request, every
chunk is delivered and written, and the flush succeeds. -/
def cleanAttempt (a : Attempt) : Bool :=
  a.openOk && a.seekOk && a.requestOk && a.flushOk &&
    a.chunks.all fun c =>
      match c with
      | ChunkEv.bytes _ wok => wok
      | ChunkEv.streamErr => false

theorem runChunks_evs_progress (p : Nat) (w : List Nat) (d : Nat)
    (cs : List ChunkEv) :
    ∀ e ∈ (runChunks p w d cs).evs, ∃ n, e = Ev.progressEv n := by
  induction cs generalizing p w d with
  | nil => intro e he; simp [runChunks] at he
  | cons c rest ih =>
    intro e he
    match c with
    | ChunkEv.streamErr => simp [runChunks] at he
    | ChunkEv.bytes b wok =>
      simp only [runChunks] at he
      split at he
      · exact ih p w (d + b.length) e he
      · split at he
        · simp only [List.mem_cons] at he
          rcases he with he | he
          · exact ⟨d + b.length, he⟩
          · exact ih _ _ _ e he
        · simp at he

theorem runChunks_len (p : Nat) (w : List Nat) (d : Nat) (cs : List ChunkEv)
    (hw : w.length = p) (hd : d ≤ p) :
    (runChunks p w d cs).w.length = (runChunks p w d cs).p := by
  induction cs generalizing p w d with
  | nil => simpa [runChunks]
  | cons c rest ih =>
    match c with
    | ChunkEv.streamErr => simpa [runChunks]
    | ChunkEv.bytes b wok =>
      simp only [runChunks]
      split
      case isTrue hle => exact ih p w (d + b.length) hw hle
      case isFalse hgt =>
        split
        · refine ih _ _ _ ?_ (Nat.le_refl _)
          simp only [List.length_append, List.length_drop]
          omega
        · simpa

theorem runChunks_p_le (p : Nat) (w : List Nat) (d : Nat) (cs : List ChunkEv) :
    p ≤ (runChunks p w d cs).p := by
  induction cs generalizing p w d with
  | nil => simp [runChunks]
  | cons c rest ih =>
    match c with
    | ChunkEv.streamErr => simp [runChunks]
    | ChunkEv.bytes b wok =>
      simp only [runChunks]
      split
      · exact ih p w (d + b.length)
      case isFalse hgt =>
        split
        · exact le_trans (by omega) (ih (d + b.length) _ (d + b.length))
        · simp

theorem importCache_not_in_runChunks (p : Nat) (w : List Nat) (d : Nat)
    (cs : List ChunkEv) : Ev.importCache ∉ (runChunks p w d cs).evs := by
  intro h
  obtain ⟨n, hn⟩ := runChunks_evs_progress p w d cs Ev.importCache h
  cases hn

theorem importCache_in_verifyEvents (sha1 : List Nat → List Nat)
    (declared : List Nat) (p : Nat) (w : List Nat) :
    Ev.importCache ∈ verifyEvents sha1 declared p w ↔ sha1 w = declared := by
  unfold verifyEvents
  split
  case isTrue h => simp [h]
  case isFalse h => simp [h]

theorem runWorker_len (sha1 : List Nat → List Nat) (fileSize : Nat)
    (declared : List Nat) (p : Nat) (w : List Nat) (attempts : List Attempt)
    (hw : w.length = p) :
    (runWorker sha1 fileSize declared p w attempts).w.length =
      (runWorker sha1 fileSize declared p w attempts).p := by
  induction attempts generalizing p w with
  | nil => simpa [runWorker]
  | cons a rest ih =>
    have hlen := runChunks_len p w 0 a.chunks hw (Nat.zero_le p)
    simp only [runWorker]
    split
    case isTrue =>
      split
      · exact ih _ _ hlen
      · simpa
      · split
        · split
          · simpa
          · simpa
        · exact ih _ _ hlen
    case isFalse => exact ih p w hw

/-- Soundness of the import: whenever `import_cache` appears in the trace,
the final progress equals the declared size and the SHA-1 of the bytes
written equals the declared hash. -/
theorem runWorker_import_sound (sha1 : List Nat → List Nat) (fileSize : Nat)
    (declared : List Nat) (p : Nat) (w : List Nat) (attempts : List Attempt) :
    Ev.importCache ∈ (runWorker sha1 fileSize declared p w attempts).evs →
      (runWorker sha1 fileSize declared p w attempts).p = fileSize ∧
      sha1 (runWorker sha1 fileSize declared p w attempts).w = declared := by
  induction attempts generalizing p w with
  | nil => intro h; simp [runWorker] at h
  | cons a rest ih =>
    simp only [runWorker]
    split
    case isTrue =>
      split
      case h_1 =>
        intro h
        simp only [List.mem_append] at h
        rcases h with h | h
        · exact absurd h (importCache_not_in_runChunks _ _ _ _)
        · exact ih _ _ h
      case h_2 =>
        intro h
        simp only [List.mem_append, List.mem_singleton] at h
        rcases h with h | h
        · exact absurd h (importCache_not_in_runChunks _ _ _ _)
        · cases h
      case h_3 =>
        split
        case isTrue hp =>
          split
          case isTrue =>
            intro h
            simp only [List.mem_append, List.mem_singleton] at h
            rcases h with (h | h) | h
            · exact absurd h (importCache_not_in_runChunks _ _ _ _)
            · exact ⟨hp, (importCache_in_verifyEvents _ _ _ _).mp h⟩
            · cases h
          case isFalse =>
            intro h
            simp only [List.mem_append, List.mem_singleton] at h
            rcases h with h | h
            · exact absurd h (importCache_not_in_runChunks _ _ _ _)
            · cases h
        case isFalse =>
          intro h
          simp only [List.mem_append] at h
          rcases h with h | h
          · exact absurd h (importCache_not_in_runChunks _ _ _ _)
          · exact ih _ _ h
    case isFalse =>
      intro h
      exact ih _ _ h

/-- Trace ordering around the import: whenever `import_cache` appears, the
trace contains — in order — a `closed()` rendezvous, the registry removal,
the successful hash comparison, a second `closed()` rendezvous, and only
then the import. -/
theorem runWorker_import_ordering (sha1 : List Nat → List Nat) (fileSize : Nat)
    (declared : List Nat) (p : Nat) (w : List Nat) (attempts : List Attempt) :
    Ev.importCache ∈ (runWorker sha1 fileSize declared p w attempts).evs →
      [Ev.closedAwait, Ev.removeState, Ev.hashCheck true, Ev.closedAwait,
        Ev.importCache].Sublist (runWorker sha1 fileSize declared p w attempts).evs := by
  induction attempts generalizing p w with
  | nil => intro h; simp [runWorker] at h
  | cons a rest ih =>
    simp only [runWorker]
    split
    case isTrue =>
      split
      case h_1 =>
        intro h
        simp only [List.mem_append] at h
        rcases h with h | h
        · exact absurd h (importCache_not_in_runChunks _ _ _ _)
        · exact (ih _ _ h).trans (List.sublist_append_right _ _)
      case h_2 =>
        intro h
        simp only [List.mem_append, List.mem_singleton] at h
        rcases h with h | h
        · exact absurd h (importCache_not_in_runChunks _ _ _ _)
        · cases h
      case h_3 =>
        split
        case isTrue =>
          split
          case isTrue =>
            intro h
            simp only [List.mem_append, List.mem_singleton] at h
            rcases h with (h | h) | h
            · exact absurd h (importCache_not_in_runChunks _ _ _ _)
            · have hmatch := (importCache_in_verifyEvents sha1 declared
                (runChunks p w 0 a.chunks).p (runChunks p w 0 a.chunks).w).mp h
              have hverify : verifyEvents sha1 declared
                  (runChunks p w 0 a.chunks).p (runChunks p w 0 a.chunks).w =
                  Ev.progressEv (runChunks p w 0 a.chunks).p ::
                    [Ev.closedAwait, Ev.removeState, Ev.hashCheck true,
                      Ev.closedAwait, Ev.importCache] := by
                unfold verifyEvents
                rw [if_pos hmatch, decide_eq_true hmatch]
                rfl
              have h1 : [Ev.closedAwait, Ev.removeState, Ev.hashCheck true,
                  Ev.closedAwait, Ev.importCache].Sublist
                  (verifyEvents sha1 declared (runChunks p w 0 a.chunks).p
                    (runChunks p w 0 a.chunks).w) := by
                rw [hverify]
                exact List.Sublist.cons _ (List.Sublist.refl _)
              exact (h1.trans (List.sublist_append_right _ _)).trans
                (List.sublist_append_left _ _)
            · cases h
          case isFalse =>
            intro h
            simp only [List.mem_append, List.mem_singleton] at h
            rcases h with h | h
            · exact absurd h (importCache_not_in_runChunks _ _ _ _)
            · cases h
        case isFalse =>
          intro h
          simp only [List.mem_append] at h
          rcases h with h | h
          · exact absurd h (importCache_not_in_runChunks _ _ _ _)
          · exact (ih _ _ h).trans (List.sublist_append_right _ _)
    case isFalse =>
      intro h
      exact ih _ _ h

/-- Concatenation of the bytes of a chunk list. -/
def chunksBytes (cs : List ChunkEv) : List Nat :=
  (cs.map fun c =>
    match c with
    | ChunkEv.bytes b _ => b
    | ChunkEv.streamErr => []).flatten

/-- Total byte count of a chunk list. -/
def chunksLen (cs : List ChunkEv) : Nat :=
  (cs.map fun c =>
    match c with
    | ChunkEv.bytes b _ => b.length
    | ChunkEv.streamErr => 0).sum

theorem attemptBytes_eq (a : Attempt) : attemptBytes a = chunksBytes a.chunks := rfl

theorem deliveredLen_eq (a : Attempt) : deliveredLen a = chunksLen a.chunks := rfl

/-- A chunk loop in which every chunk arrives and every write succeeds
consumes the whole stream: progress advances by the total delivered byte
count, exactly the delivered bytes are appended, and the stream ends
normally. -/
theorem runChunks_clean (d : Nat) (w : List Nat) (cs : List ChunkEv)
    (hclean : (cs.all fun c =>
      match c with
      | ChunkEv.bytes _ wok => wok
      | ChunkEv.streamErr => false) = true) :
    (runChunks d w d cs).p = d + chunksLen cs ∧
    (runChunks d w d cs).w = w ++ chunksBytes cs ∧
    (runChunks d w d cs).exit = CExit.ended := by
  induction cs generalizing d w with
  | nil => simp [runChunks, chunksLen, chunksBytes]
  | cons c rest ih =>
    match c with
    | ChunkEv.streamErr => simp [List.all_cons] at hclean
    | ChunkEv.bytes b wok =>
      simp only [List.all_cons, Bool.and_eq_true] at hclean
      obtain ⟨hwok, hrest⟩ := hclean
      subst hwok
      simp only [runChunks]
      split
      case isTrue hle =>
        have hb : b.length = 0 := by omega
        have hbnil : b = [] := List.length_eq_zero.mp hb
        subst hbnil
        simp only [List.length_nil, Nat.add_zero]
        have := ih d w hrest
        simpa [chunksLen, chunksBytes] using this
      case isFalse hgt =>
        rw [if_pos trivial]
        have harith : d + b.length - d = b.length := by omega
        have hdrop : b.drop (b.length - (d + b.length - d)) = b := by
          rw [harith, Nat.sub_self, List.drop_zero]
        rw [hdrop]
        have := ih (d + b.length) (w ++ b) hrest
        refine ⟨?_, ?_, this.2.2⟩
        · rw [this.1]
          simp [chunksLen]
          omega
        · rw [this.2.1]
          simp [chunksBytes]

/-- Claim C1, amended: `import_cache` is invoked only if the number of bytes
written equals the declared size and the SHA-1 of the bytes written (and
hashed) equals the declared hash — so a hash mismatch is never imported —
and the hash comparison always precedes the import call; conversely,
importing is guaranteed when an attempt delivers exactly the declared size
with matching hash and no stream or file-operation error.  (The unamended
biconditional fails: a stream error after the final byte with the retry
budget then exhausted leaves all bytes written and the hash matching, yet
nothing is imported — see the counterexample.) -/
theorem import_integrity (sha1 : List Nat → List Nat) (fileSize : Nat)
    (declared : List Nat) (attempts : List Attempt) :
    (Ev.importCache ∈ (workerRun sha1 fileSize declared attempts).evs →
      (workerRun sha1 fileSize declared attempts).w.length = fileSize ∧
      sha1 (workerRun sha1 fileSize declared attempts).w = declared) ∧
    (Ev.importCache ∈ (workerRun sha1 fileSize declared attempts).evs →
      [Ev.hashCheck true, Ev.importCache].Sublist
        (workerRun sha1 fileSize declared attempts).evs) ∧
    (∀ a rest, attempts = a :: rest → cleanAttempt a = true →
      deliveredLen a = fileSize → sha1 (attemptBytes a) = declared →
      Ev.importCache ∈ (workerRun sha1 fileSize declared attempts).evs) := by
  refine ⟨?_, ?_, ?_⟩
  · intro h
    have hs := runWorker_import_sound sha1 fileSize declared 0 [] attempts h
    have hl := runWorker_len sha1 fileSize declared 0 [] attempts rfl
    exact ⟨hl.trans hs.1, hs.2⟩
  · intro h
    have h5 := runWorker_import_ordering sha1 fileSize declared 0 [] attempts h
    refine List.Sublist.trans ?_ h5
    exact .cons _ (.cons _ (.cons₂ _ (.cons _ (.cons₂ _ .slnil))))
  · intro a rest heq hclean hlen hsha
    subst heq
    simp only [cleanAttempt, Bool.and_eq_true] at hclean
    obtain ⟨⟨⟨⟨ho, hs⟩, hr⟩, hf⟩, hall⟩ := hclean
    have hcl := runChunks_clean 0 [] a.chunks hall
    simp only [workerRun, runWorker]
    rw [if_pos (by simp [ho, hs, hr])]
    split
    case h_1 heq => rw [hcl.2.2] at heq; cases heq
    case h_2 heq => rw [hcl.2.2] at heq; cases heq
    case h_3 =>
      rw [if_pos (by rw [hcl.1, ← deliveredLen_eq, hlen]; omega), if_pos hf]
      simp only [List.mem_append]
      left; right
      refine (importCache_in_verifyEvents _ _ _ _).mpr ?_
      rw [hcl.2.1]
      simpa [← attemptBytes_eq] using hsha

/-- Witness for C1 at a concrete clean download of one byte. -/
theorem import_integrity_witness :
    Ev.importCache ∈ (workerRun (fun l => l) 1 [7]
      [⟨true, true, true, [ChunkEv.bytes [7] true], true⟩]).evs :=
  (import_integrity (fun l => l) 1 [7]
      [⟨true, true, true, [ChunkEv.bytes [7] true], true⟩]).2.2
    ⟨true, true, true, [ChunkEv.bytes [7] true], true⟩ [] rfl
    (by decide) (by decide) (by decide)

/-- Counterexample to claim C1 as stated: on each of the three retry
iterations the upstream delivers the single declared byte (skipped after the
first time) and then errors; the retry budget is exhausted with nothing more
to write.  The worker wrote exactly the declared size and the SHA-1 of
the bytes written equals the declared hash, yet `import_cache` is never
invoked — the biconditional "import iff size and hash match" fails in the
right-to-left direction. -/
theorem import_integrity_cex :
    (workerRun (fun l => l) 1 [7]
        (List.replicate 3
          ⟨true, true, true, [ChunkEv.bytes [7] true, ChunkEv.streamErr],
            true⟩)).w.length = 1 ∧
    (fun l => l) (workerRun (fun l => l) 1 [7]
        (List.replicate 3
          ⟨true, true, true, [ChunkEv.bytes [7] true, ChunkEv.streamErr],
            true⟩)).w = [7] ∧
    Ev.importCache ∉ (workerRun (fun l => l) 1 [7]
        (List.replicate 3
          ⟨true, true, true, [ChunkEv.bytes [7] true, ChunkEv.streamErr],
            true⟩)).evs := by
  decide

/-- Claim C3: the downloader calls `import_cache` only after a
`progress_watch.closed()` rendezvous has completed — all subscriber
receivers dropped, so no streaming body is still reading the temp file when
it is moved into the cache — and a second `closed()` await sits between the
registry removal and the import, guarding against a subscriber that joined
between the removal and the hash comparison.  Formally: in every trace,
`closedAwait`, `removeState`, a second `closedAwait` and `importCache`
occur in this order. -/
theorem closed_rendezvous_before_import (sha1 : List Nat → List Nat)
    (fileSize : Nat) (declared : List Nat) (attempts : List Attempt)
    (h : Ev.importCache ∈ (workerRun sha1 fileSize declared attempts).evs) :
    [Ev.closedAwait, Ev.removeState, Ev.closedAwait, Ev.importCache].Sublist
      (workerRun sha1 fileSize declared attempts).evs := by
  have h5 := runWorker_import_ordering sha1 fileSize declared 0 [] attempts h
  refine List.Sublist.trans ?_ h5
  exact .cons₂ _ (.cons₂ _ (.cons _ (.cons₂ _ (.cons₂ _ .slnil))))

/-- Witness for C3 at a concrete successful download. -/
theorem closed_rendezvous_before_import_witness :
    [Ev.closedAwait, Ev.removeState, Ev.closedAwait, Ev.importCache].Sublist
      (workerRun (fun l => l) 1 [7]
        [⟨true, true, true, [ChunkEv.bytes [7] true], true⟩]).evs :=
  closed_rendezvous_before_import (fun l => l) 1 [7]
    [⟨true, true, true, [ChunkEv.bytes [7] true], true⟩] (by decide)

/-- The progress value carried by an event, if any. -/
def evProgress : Ev → Option Nat
  | Ev.progressEv n => some n
  | _ => none

/-- Values published on the progress watch by a list of events. -/
def valuesOf (evs : List Ev) : List Nat := evs.filterMap evProgress

theorem progressValues_eq (r : WRes) : progressValues r = 0 :: valuesOf r.evs := rfl

theorem valuesOf_verifyEvents (sha1 : List Nat → List Nat) (declared : List Nat)
    (p : Nat) (w : List Nat) :
    valuesOf (verifyEvents sha1 declared p w) = [p] := by
  unfold verifyEvents valuesOf
  split <;> rfl

theorem runChunks_values (p : Nat) (w : List Nat) (d : Nat) (cs : List ChunkEv) :
    (∀ v ∈ valuesOf (runChunks p w d cs).evs,
      p ≤ v ∧ v ≤ (runChunks p w d cs).p) ∧
    (valuesOf (runChunks p w d cs).evs).Pairwise (· ≤ ·) := by
  induction cs generalizing p w d with
  | nil => simp [runChunks, valuesOf]
  | cons c rest ih =>
    match c with
    | ChunkEv.streamErr => simp [runChunks, valuesOf]
    | ChunkEv.bytes b wok =>
      simp only [runChunks]
      split
      case isTrue hle => exact ih p w (d + b.length)
      case isFalse hgt =>
        split
        case isTrue =>
          have hrec := ih (d + b.length) (w ++ b.drop (b.length - (d + b.length - p)))
            (d + b.length)
          have hple := runChunks_p_le (d + b.length)
            (w ++ b.drop (b.length - (d + b.length - p))) (d + b.length) rest
          simp only [valuesOf, List.filterMap_cons, evProgress] at hrec hple ⊢
          constructor
          · intro v hv
            simp only [List.mem_cons] at hv
            rcases hv with hv | hv
            · subst hv; exact ⟨by omega, hple⟩
            · have := hrec.1 v hv
              exact ⟨by omega, this.2⟩
          · rw [List.pairwise_cons]
            exact ⟨fun v hv => (hrec.1 v hv).1, hrec.2⟩
        case isFalse => simp [valuesOf]

theorem runChunks_values_le (p : Nat) (w : List Nat) (d : Nat)
    (cs : List ChunkEv) :
    (∀ v ∈ valuesOf (runChunks p w d cs).evs, v ≤ d + chunksLen cs) ∧
    (runChunks p w d cs).p ≤ max p (d + chunksLen cs) := by
  induction cs generalizing p w d with
  | nil => simp [runChunks, valuesOf, chunksLen]
  | cons c rest ih =>
    match c with
    | ChunkEv.streamErr =>
      simp [runChunks, valuesOf, chunksLen]
    | ChunkEv.bytes b wok =>
      have hlen : chunksLen (ChunkEv.bytes b wok :: rest) =
          b.length + chunksLen rest := by simp [chunksLen]
      simp only [runChunks, hlen]
      split
      case isTrue hle =>
        have := ih p w (d + b.length)
        refine ⟨fun v hv => ?_, ?_⟩
        · have := this.1 v hv; omega
        · have := this.2; omega
      case isFalse hgt =>
        split
        case isTrue =>
          have hrec := ih (d + b.length)
            (w ++ b.drop (b.length - (d + b.length - p))) (d + b.length)
          simp only [valuesOf, List.filterMap_cons, evProgress] at hrec ⊢
          constructor
          · intro v hv
            simp only [List.mem_cons] at hv
            rcases hv with hv | hv
            · subst hv; omega
            · have := hrec.1 v hv; omega
          · have := hrec.2; omega
        case isFalse => simp [valuesOf]

theorem valuesOf_append (l1 l2 : List Ev) :
    valuesOf (l1 ++ l2) = valuesOf l1 ++ valuesOf l2 :=
  List.filterMap_append l1 l2 evProgress

theorem valuesOf_removeState : valuesOf [Ev.removeState] = [] := rfl

theorem runWorker_values (sha1 : List Nat → List Nat) (fileSize : Nat)
    (declared : List Nat) (p : Nat) (w : List Nat) (attempts : List Attempt) :
    (∀ v ∈ valuesOf (runWorker sha1 fileSize declared p w attempts).evs,
      p ≤ v ∧ v ≤ (runWorker sha1 fileSize declared p w attempts).p) ∧
    (valuesOf (runWorker sha1 fileSize declared p w attempts).evs).Pairwise
      (· ≤ ·) ∧
    p ≤ (runWorker sha1 fileSize declared p w attempts).p := by
  induction attempts generalizing p w with
  | nil => simp [runWorker, valuesOf, evProgress]
  | cons a rest ih =>
    simp only [runWorker]
    split
    case isTrue =>
      have hch := runChunks_values p w 0 a.chunks
      have hple := runChunks_p_le p w 0 a.chunks
      split
      case h_1 =>
        have hih := ih (runChunks p w 0 a.chunks).p (runChunks p w 0 a.chunks).w
        simp only [valuesOf_append]
        refine ⟨?_, ?_, le_trans hple hih.2.2⟩
        · intro v hv
          simp only [List.mem_append] at hv
          rcases hv with hv | hv
          · have := hch.1 v hv
            exact ⟨this.1, le_trans this.2 hih.2.2⟩
          · have := hih.1 v hv
            exact ⟨le_trans hple this.1, this.2⟩
        · refine List.pairwise_append.mpr ⟨hch.2, hih.2.1, ?_⟩
          intro x hx y hy
          exact le_trans (hch.1 x hx).2 (hih.1 y hy).1
      case h_2 =>
        simp only [valuesOf_append, valuesOf_removeState, List.append_nil]
        exact ⟨hch.1, hch.2, hple⟩
      case h_3 =>
        split
        case isTrue =>
          split
          case isTrue =>
            simp only [valuesOf_append, valuesOf_removeState, List.append_nil,
              valuesOf_verifyEvents]
            refine ⟨?_, ?_, hple⟩
            · intro v hv
              simp only [List.mem_append, List.mem_singleton] at hv
              rcases hv with hv | hv
              · exact ⟨(hch.1 v hv).1, (hch.1 v hv).2⟩
              · subst hv; exact ⟨hple, le_refl _⟩
            · refine List.pairwise_append.mpr ⟨hch.2, List.pairwise_singleton _ _, ?_⟩
              intro x hx y hy
              simp only [List.mem_singleton] at hy
              subst hy
              exact (hch.1 x hx).2
          case isFalse =>
            simp only [valuesOf_append, valuesOf_removeState, List.append_nil]
            exact ⟨hch.1, hch.2, hple⟩
        case isFalse =>
          have hih := ih (runChunks p w 0 a.chunks).p (runChunks p w 0 a.chunks).w
          simp only [valuesOf_append]
          refine ⟨?_, ?_, le_trans hple hih.2.2⟩
          · intro v hv
            simp only [List.mem_append] at hv
            rcases hv with hv | hv
            · have := hch.1 v hv
              exact ⟨this.1, le_trans this.2 hih.2.2⟩
            · have := hih.1 v hv
              exact ⟨le_trans hple this.1, this.2⟩
          · refine List.pairwise_append.mpr ⟨hch.2, hih.2.1, ?_⟩
            intro x hx y hy
            exact le_trans (hch.1 x hx).2 (hih.1 y hy).1
    case isFalse => exact ih p w

theorem runWorker_values_le (sha1 : List Nat → List Nat) (fileSize : Nat)
    (declared : List Nat) (p : Nat) (w : List Nat) (attempts : List Attempt)
    (hp : p ≤ fileSize) (hb : ∀ a ∈ attempts, deliveredLen a ≤ fileSize) :
    (∀ v ∈ valuesOf (runWorker sha1 fileSize declared p w attempts).evs,
      v ≤ fileSize) ∧
    (runWorker sha1 fileSize declared p w attempts).p ≤ fileSize := by
  induction attempts generalizing p w with
  | nil => simpa [runWorker, valuesOf, evProgress]
  | cons a rest ih =>
    have hba : deliveredLen a ≤ fileSize := hb a (by simp)
    have hbr : ∀ x ∈ rest, deliveredLen x ≤ fileSize :=
      fun x hx => hb x (by simp [hx])
    have hch := runChunks_values_le p w 0 a.chunks
    rw [deliveredLen_eq] at hba
    have hchv : ∀ v ∈ valuesOf (runChunks p w 0 a.chunks).evs, v ≤ fileSize :=
      fun v hv => le_trans (hch.1 v hv) (by omega)
    have hchp : (runChunks p w 0 a.chunks).p ≤ fileSize := by
      have := hch.2; omega
    simp only [runWorker]
    split
    case isTrue =>
      split
      case h_1 =>
        have hih := ih (runChunks p w 0 a.chunks).p (runChunks p w 0 a.chunks).w
          hchp hbr
        simp only [valuesOf_append]
        refine ⟨?_, hih.2⟩
        intro v hv
        simp only [List.mem_append] at hv
        rcases hv with hv | hv
        · exact hchv v hv
        · exact hih.1 v hv
      case h_2 =>
        simp only [valuesOf_append, valuesOf_removeState, List.append_nil]
        exact ⟨hchv, hchp⟩
      case h_3 =>
        split
        case isTrue =>
          split
          case isTrue =>
            simp only [valuesOf_append, valuesOf_removeState, List.append_nil,
              valuesOf_verifyEvents]
            refine ⟨?_, hchp⟩
            intro v hv
            simp only [List.mem_append, List.mem_singleton] at hv
            rcases hv with hv | hv
            · exact hchv v hv
            · subst hv; exact hchp
          case isFalse =>
            simp only [valuesOf_append, valuesOf_removeState, List.append_nil]
            exact ⟨hchv, hchp⟩
        case isFalse =>
          have hih := ih (runChunks p w 0 a.chunks).p (runChunks p w 0 a.chunks).w
            hchp hbr
          simp only [valuesOf_append]
          refine ⟨?_, hih.2⟩
          intro v hv
          simp only [List.mem_append] at hv
          rcases hv with hv | hv
          · exact hchv v hv
          · exact hih.1 v hv
    case isFalse => exact ih p w hp hbr

/-- On success the declared size itself is published on the watch. -/
theorem runWorker_import_progress (sha1 : List Nat → List Nat) (fileSize : Nat)
    (declared : List Nat) (p : Nat) (w : List Nat) (attempts : List Attempt) :
    Ev.importCache ∈ (runWorker sha1 fileSize declared p w attempts).evs →
      Ev.progressEv fileSize ∈ (runWorker sha1 fileSize declared p w attempts).evs := by
  induction attempts generalizing p w with
  | nil => intro h; simp [runWorker] at h
  | cons a rest ih =>
    simp only [runWorker]
    split
    case isTrue =>
      split
      case h_1 =>
        intro h
        simp only [List.mem_append] at h ⊢
        rcases h with h | h
        · exact absurd h (importCache_not_in_runChunks _ _ _ _)
        · exact Or.inr (ih _ _ h)
      case h_2 =>
        intro h
        simp only [List.mem_append, List.mem_singleton] at h
        rcases h with h | h
        · exact absurd h (importCache_not_in_runChunks _ _ _ _)
        · cases h
      case h_3 =>
        split
        case isTrue hp =>
          split
          case isTrue =>
            intro h
            simp only [List.mem_append, List.mem_singleton] at h ⊢
            left; right
            unfold verifyEvents
            rw [← hp]
            simp
          case isFalse =>
            intro h
            simp only [List.mem_append, List.mem_singleton] at h
            rcases h with h | h
            · exact absurd h (importCache_not_in_runChunks _ _ _ _)
            · cases h
        case isFalse =>
          intro h
          simp only [List.mem_append] at h ⊢
          rcases h with h | h
          · exact absurd h (importCache_not_in_runChunks _ _ _ _)
          · exact Or.inr (ih _ _ h)
    case isFalse =>
      intro h
      exact ih _ _ h

/-- Claim C4, amended: for every download the sequence of values held by
`progress_watch` starts at 0 and is monotonically non-decreasing for every
possible upstream byte stream, and on success (import) the final progress
equals the declared size, which is itself published.  The bound "every
published value is at most the declared size" holds provided every attempt
delivers at most the declared number of bytes; the chunk loop does not clamp
over-delivery, so the unamended bound fails for streams that deliver more
bytes than the declared size — see the counterexample. -/
theorem progress_monotone_bounded (sha1 : List Nat → List Nat) (fileSize : Nat)
    (declared : List Nat) (attempts : List Attempt) :
    (progressValues (workerRun sha1 fileSize declared attempts)).Pairwise
      (· ≤ ·) ∧
    ((∀ a ∈ attempts, deliveredLen a ≤ fileSize) →
      ∀ v ∈ progressValues (workerRun sha1 fileSize declared attempts),
        v ≤ fileSize) ∧
    (Ev.importCache ∈ (workerRun sha1 fileSize declared attempts).evs →
      (workerRun sha1 fileSize declared attempts).p = fileSize ∧
      Ev.progressEv fileSize ∈ (workerRun sha1 fileSize declared attempts).evs) := by
  have hv := runWorker_values sha1 fileSize declared 0 [] attempts
  refine ⟨?_, ?_, ?_⟩
  · rw [progressValues_eq, List.pairwise_cons]
    exact ⟨fun v hv2 => Nat.zero_le v, hv.2.1⟩
  · intro hb v hmem
    rw [progressValues_eq, List.mem_cons] at hmem
    rcases hmem with hmem | hmem
    · subst hmem; exact Nat.zero_le _
    · exact (runWorker_values_le sha1 fileSize declared 0 [] attempts
        (Nat.zero_le _) hb).1 v hmem
  · intro h
    exact ⟨(runWorker_import_sound sha1 fileSize declared 0 [] attempts h).1,
      runWorker_import_progress sha1 fileSize declared 0 [] attempts h⟩

/-- Witness for C4 at a concrete successful one-byte download. -/
theorem progress_monotone_bounded_witness :
    (∀ v ∈ progressValues (workerRun (fun l => l) 1 [7]
      [⟨true, true, true, [ChunkEv.bytes [7] true], true⟩]), v ≤ 1) ∧
    (workerRun (fun l => l) 1 [7]
      [⟨true, true, true, [ChunkEv.bytes [7] true], true⟩]).p = 1 := by
  have h := progress_monotone_bounded (fun l => l) 1 [7]
    [⟨true, true, true, [ChunkEv.bytes [7] true], true⟩]
  exact ⟨h.2.1 (by decide), (h.2.2 (by decide)).1⟩

/-- Counterexample to claim C4 as stated: the declared size is 1 but the
upstream delivers two bytes in one chunk; the worker writes both and
publishes progress 2, exceeding the declared size — the claimed bound fails
for streams that deliver more bytes than the declared size. -/
theorem progress_bound_cex :
    ¬ (∀ v ∈ progressValues (workerRun (fun l => l) 1 [0]
        (List.replicate 3
          ⟨true, true, true, [ChunkEv.bytes [0, 0] true], true⟩)), v ≤ 1) := by
  decide

/-- Every terminating run of the worker ends with a registry removal: the
explicit `remove` on the verified path and, on all paths, the `scopeguard`
moved into the task, whose drop removes the entry once more (`remove` is
idempotent). -/
theorem runWorker_last_remove (sha1 : List Nat → List Nat) (fileSize : Nat)
    (declared : List Nat) (p : Nat) (w : List Nat) (attempts : List Attempt) :
    (runWorker sha1 fileSize declared p w attempts).evs.getLast? =
      some Ev.removeState := by
  induction attempts generalizing p w with
  | nil => rfl
  | cons a rest ih =>
    simp only [runWorker]
    split
    case isTrue =>
      split
      case h_1 =>
        rw [List.getLast?_append, ih]
        rfl
      case h_2 => exact List.getLast?_concat _
      case h_3 =>
        split
        case isTrue =>
          split
          case isTrue => exact List.getLast?_concat _
          case isFalse => exact List.getLast?_concat _
        case isFalse =>
          rw [List.getLast?_append, ih]
          rfl
    case isFalse => exact ih p w

/-- The initiator path of cache.rs lines 102-207: once the registry entry is
inserted, the scope guard of line 105 is armed; if `rpc.sr_fetch` fails
(line 112) the handler returns 404 and the guard drop removes the entry;
otherwise the worker (which now owns the guard) is spawned. -/
def initiatorEvents (sha1 : List Nat → List Nat) (fileSize : Nat)
    (declared : List Nat) (srFetchOk : Bool) (attempts : List Attempt) :
    List Ev :=
  if srFetchOk then (workerRun sha1 fileSize declared attempts).evs
  else [Ev.removeState]

/-- A cancelled worker task: the future is dropped after `k` of its events;
dropping it runs the `scopeguard`, which removes the registry entry. -/
def cancelledEvents (sha1 : List Nat → List Nat) (fileSize : Nat)
    (declared : List Nat) (attempts : List Attempt) (k : Nat) : List Ev :=
  (workerRun sha1 fileSize declared attempts).evs.take k ++ [Ev.removeState]

/-- Claim C6: every inserted registry entry is removed on every exit path —
success, terminal failure (write/flush error or exhausted retries),
upstream-resolver failure, and task cancellation at any point: each of these
finite traces ends with (hence contains) a registry removal, so an entry
exists only while its downloader task is alive or tearing down. -/
theorem registry_cleanup (sha1 : List Nat → List Nat) (fileSize : Nat)
    (declared : List Nat) (attempts : List Attempt) (srFetchOk : Bool)
    (k : Nat) :
    (initiatorEvents sha1 fileSize declared srFetchOk attempts).getLast? =
      some Ev.removeState ∧
    Ev.removeState ∈ initiatorEvents sha1 fileSize declared srFetchOk attempts ∧
    (cancelledEvents sha1 fileSize declared attempts k).getLast? =
      some Ev.removeState := by
  have hlast : (initiatorEvents sha1 fileSize declared srFetchOk attempts).getLast? =
      some Ev.removeState := by
    unfold initiatorEvents
    split
    · exact runWorker_last_remove sha1 fileSize declared 0 [] attempts
    · rfl
  exact ⟨hlast, List.mem_of_getLast?_eq_some hlast, List.getLast?_concat _⟩

theorem chunksBytes_cons_bytes (b : List Nat) (wok : Bool) (rest : List ChunkEv) :
    chunksBytes (ChunkEv.bytes b wok :: rest) = b ++ chunksBytes rest := by
  simp [chunksBytes]

/-- Content invariant of the chunk loop: when the bytes already written are
exactly the first `progress` bytes of the upstream content `C` and the
attempt's stream is a prefix of `C` offset by the running `download`
counter, the skip/tail logic writes exactly the missing range — afterwards
the file is still a prefix of `C`, now of length equal to the new
progress. -/
theorem runChunks_content (C : List Nat) (p : Nat) (w : List Nat) (d : Nat)
    (cs : List ChunkEv) (hw : w = C.take p) (hp : p ≤ C.length) (hd : d ≤ p)
    (hpre : chunksBytes cs <+: C.drop d) :
    (runChunks p w d cs).w = C.take (runChunks p w d cs).p ∧
    (runChunks p w d cs).p ≤ C.length := by
  induction cs generalizing p w d with
  | nil => exact ⟨hw, hp⟩
  | cons c rest ih =>
    match c with
    | ChunkEv.streamErr => exact ⟨hw, hp⟩
    | ChunkEv.bytes b wok =>
      rw [chunksBytes_cons_bytes] at hpre
      obtain ⟨tail, htail⟩ := hpre
      rw [List.append_assoc] at htail
      have hbpre : b = (C.drop d).take b.length := by
        rw [← htail, List.take_left]
      have hlen : d + b.length + ((chunksBytes rest).length + tail.length) =
          C.length := by
        have := congrArg List.length htail
        simp only [List.length_append, List.length_drop] at this
        omega
      have hrest_pre : chunksBytes rest <+: C.drop (d + b.length) := by
        refine ⟨tail, ?_⟩
        rw [← List.drop_drop, ← htail, List.drop_left]
      simp only [runChunks]
      split
      case isTrue hle => exact ih p w (d + b.length) hw hp hle hrest_pre
      case isFalse hgt =>
        split
        case isTrue =>
          have hws : d + b.length - p ≤ b.length := by omega
          have hblen2 : (List.take b.length (List.drop d C)).length = b.length := by
            rw [← hbpre]
          have hdat : b.drop (b.length - (d + b.length - p)) =
              (C.drop p).take (d + b.length - p) := by
            conv_lhs => rw [hbpre]
            rw [List.drop_take, List.drop_drop]
            congr 1
            · omega
            · congr 1
              omega
          have hw2 : w ++ b.drop (b.length - (d + b.length - p)) =
              C.take (d + b.length) := by
            rw [hw, hdat]
            have h1 : C.take (d + b.length) =
                C.take p ++ (C.drop p).take (d + b.length - p) := by
              rw [← List.take_add]
              congr 1
              omega
            rw [h1]
          exact ih (d + b.length) _ (d + b.length) hw2 (by omega)
            (Nat.le_refl _) hrest_pre
        case isFalse => exact ⟨hw, hp⟩

/-- Content invariant of the whole retry loop: when every attempt's stream
serves a prefix of the same upstream content `C` (the sources all serve the
same file from byte 0), the temp file is at every moment the prefix of `C`
of length `progress`. -/
theorem runWorker_content (sha1 : List Nat → List Nat) (fileSize : Nat)
    (declared : List Nat) (C : List Nat) (p : Nat) (w : List Nat)
    (attempts : List Attempt) (hw : w = C.take p) (hp : p ≤ C.length)
    (hsrc : ∀ a ∈ attempts, attemptBytes a <+: C) :
    (runWorker sha1 fileSize declared p w attempts).w =
      C.take (runWorker sha1 fileSize declared p w attempts).p ∧
    (runWorker sha1 fileSize declared p w attempts).p ≤ C.length := by
  induction attempts generalizing p w with
  | nil => exact ⟨hw, hp⟩
  | cons a rest ih =>
    have hsa : chunksBytes a.chunks <+: C.drop 0 := by
      rw [List.drop_zero, ← attemptBytes_eq]
      exact hsrc a (by simp)
    have hsr : ∀ x ∈ rest, attemptBytes x <+: C :=
      fun x hx => hsrc x (by simp [hx])
    have hch := runChunks_content C p w 0 a.chunks hw hp (Nat.zero_le p) hsa
    simp only [runWorker]
    split
    case isTrue =>
      split
      case h_1 => exact ih _ _ hch.1 hch.2 hsr
      case h_2 => exact hch
      case h_3 =>
        split
        case isTrue =>
          split
          case isTrue => exact hch
          case isFalse => exact hch
        case isFalse => exact ih _ _ hch.1 hch.2 hsr
    case isFalse => exact ih p w hw hp hsr

/-- The single-source run: one upstream delivers the whole declared content
in one clean stream.  Its temp file ends as the first `fileSize` bytes of
the content. -/
theorem singleSource_written (sha1 : List Nat → List Nat) (fileSize : Nat)
    (declared : List Nat) (C : List Nat) :
    (workerRun sha1 fileSize declared
      [⟨true, true, true, [ChunkEv.bytes (C.take fileSize) true], true⟩]).w =
      C.take fileSize := by
  have hcl := runChunks_clean 0 []
    [ChunkEv.bytes (C.take fileSize) true] (by rfl)
  have hw : (runChunks 0 [] 0 [ChunkEv.bytes (C.take fileSize) true]).w =
      C.take fileSize := by
    rw [hcl.2.1]
    simp [chunksBytes]
  simp only [workerRun, runWorker]
  rw [if_pos (by decide)]
  split
  case h_1 heq => rw [hcl.2.2] at heq; cases heq
  case h_2 heq => rw [hcl.2.2] at heq; cases heq
  case h_3 =>
    split
    case isTrue =>
      split
      case isTrue => exact hw
      case isFalse => exact hw
    case isFalse =>
      simp only [runWorker]
      exact hw

/-- Claim C5: when every upstream attempt serves a prefix of the same
content `C` (each retry issues a fresh full-file GET, so each stream starts
at byte 0 of `C`), the skip/tail logic of the retry loop — skip a chunk
whose cumulative offset is at most `progress`, otherwise write only the tail
`chunk[len − (download − progress)..]` — keeps the file equal to
`C.take progress` at all times; each later upstream therefore contributes
exactly the bytes `[progress, size)`, and on success the on-disk file (and
the byte sequence hashed) is identical to that of a clean single-source
download of the same content. -/
theorem resumable_refinement (sha1 : List Nat → List Nat) (fileSize : Nat)
    (declared : List Nat) (attempts : List Attempt) (C : List Nat)
    (hsrc : ∀ a ∈ attempts, attemptBytes a <+: C) :
    (workerRun sha1 fileSize declared attempts).w =
      C.take (workerRun sha1 fileSize declared attempts).p ∧
    (workerRun sha1 fileSize declared attempts).p ≤ C.length ∧
    (Ev.importCache ∈ (workerRun sha1 fileSize declared attempts).evs →
      (workerRun sha1 fileSize declared attempts).w = C.take fileSize ∧
      (workerRun sha1 fileSize declared attempts).w =
        (workerRun sha1 fileSize declared
          [⟨true, true, true, [ChunkEv.bytes (C.take fileSize) true],
            true⟩]).w) := by
  have hc := runWorker_content sha1 fileSize declared C 0 [] attempts rfl
    (Nat.zero_le _) hsrc
  refine ⟨hc.1, hc.2, ?_⟩
  intro h
  have hp := (runWorker_import_sound sha1 fileSize declared 0 [] attempts h).1
  have hwfin : (workerRun sha1 fileSize declared attempts).w =
      C.take fileSize := by
    show (runWorker sha1 fileSize declared 0 [] attempts).w = C.take fileSize
    rw [hc.1, hp]
  exact ⟨hwfin, hwfin.trans (singleSource_written sha1 fileSize declared C).symm⟩

/-- Witness for C5 at a concrete two-attempt resumed download: the first
upstream delivers one of two declared bytes and errors; the second delivers
both bytes, the first of which is skipped.  The file equals the clean
single-source download. -/
theorem resumable_refinement_witness :
    (workerRun (fun l => l) 2 [7, 8]
      [⟨true, true, true, [ChunkEv.bytes [7] true, ChunkEv.streamErr], true⟩,
       ⟨true, true, true, [ChunkEv.bytes [7] true, ChunkEv.bytes [8] true],
         true⟩]).w = [7, 8].take 2 ∧
    (workerRun (fun l => l) 2 [7, 8]
      [⟨true, true, true, [ChunkEv.bytes [7] true, ChunkEv.streamErr], true⟩,
       ⟨true, true, true, [ChunkEv.bytes [7] true, ChunkEv.bytes [8] true],
         true⟩]).w =
      (workerRun (fun l => l) 2 [7, 8]
        [⟨true, true, true, [ChunkEv.bytes ([7, 8].take 2) true], true⟩]).w := by
  have h := resumable_refinement (fun l => l) 2 [7, 8]
    [⟨true, true, true, [ChunkEv.bytes [7] true, ChunkEv.streamErr], true⟩,
     ⟨true, true, true, [ChunkEv.bytes [7] true, ChunkEv.bytes [8] true],
       true⟩] [7, 8] (by decide)
  exact h.2.2 (by decide)

end HathCache
